import Mathlib

/-!
# Distributed-Cache-System: the serving engine

A shallow embedding of `include/arena.hpp`, `include/server.hpp` and
`src/server.cpp`: the bump-pointer `Arena`, the key-value `store`, the
per-connection `ClientBuffer` and `RedisServer::handle_client_data`
(read, parse loop, command dispatch, compaction, flush).

Conventions.
* A `char` is a `Byte` (`Fin 256`); `std::string` and `std::string_view` are
  lists of bytes, compared by content, as `operator==` does.
* `size_t` is 64 bits wide: sums and differences of `size_t` values are taken
  modulo `2 ^ 64`.
* A pointer into an array is the index it points at; `nullptr` is `none`.
  `buffer.data()` of the arena is the base of an allocated vector (the server
  builds it with 64 MiB), hence never null.
-/

namespace DCS

/-! ## Bytes and literals -/

abbrev Byte := Fin 256

abbrev Bytes := List Byte

/-- The byte of an ASCII character. -/
def charByte (c : Char) : Byte := Fin.ofNat c.toNat

/-- The bytes of a C string literal. -/
def ascii (s : String) : Bytes := s.toList.map charByte

/-- Width of `size_t` arithmetic: values live in `[0, 2 ^ 64)`. -/
def SIZE_MOD : Nat := 2 ^ 64

/-- The `size_t` sum `a + b`. -/
def addSz (a b : Nat) : Nat := (a + b) % SIZE_MOD

/-- The `size_t` difference `a - b` (wraps when `b > a`). -/
def subSz (a b : Nat) : Nat := (a % SIZE_MOD + SIZE_MOD - b % SIZE_MOD) % SIZE_MOD

/-- Decimal rendering of an unsigned value, `std::to_string`. -/
def to_string (n : Nat) : Bytes := (Nat.toDigits 10 n).map charByte

/-! ## Raw memory: `memcpy`, `memmove`, reading a view -/

/-- An array of `char`, indexed from its base. -/
abbrev Mem := Nat → Byte

/-- The call `memcpy(base + dst, src.data(), n)`: bytes `[dst, dst + n)` take
the first `n` bytes of `src`, everything else is untouched. -/
def memcpy (m : Mem) (dst : Nat) (src : Bytes) (n : Nat) : Mem :=
  fun i => if dst ≤ i ∧ i < dst + n then src.getD (i - dst) 0 else m i

/-- The call `memmove(base + dst, base + src, n)` inside one array: the `n`
bytes starting at `src` land at `dst` as if copied through a temporary. -/
def memmove (m : Mem) (dst src n : Nat) : Mem :=
  fun i => if dst ≤ i ∧ i < dst + n then m (src + (i - dst)) else m i

/-- The bytes seen through `std::string_view(base + p, n)`. -/
def view (m : Mem) (p n : Nat) : Bytes := (List.range n).map (fun i => m (p + i))

/-! ## `arena.hpp` -/

/-- The struct `Arena`: `size` is `buffer.size()`, `buffer` the bytes of the
vector, `offset` the bump cursor. -/
structure Arena where
  size : Nat
  buffer : Mem
  offset : Nat

/-- The constructor `Arena(size)`: a zero-filled buffer and offset 0. -/
def Arena.new (size : Nat) : Arena := ⟨size, fun _ => 0, 0⟩

/-- The method `Arena::allocate(size)`: the returned pointer (`none` for `nullptr`)
and the arena afterwards. The guard is evaluated in `size_t`. -/
def Arena.allocate (a : Arena) (size : Nat) : Option Nat × Arena :=
  if addSz a.offset size > a.size then
    (none, a)
  else
    (some a.offset, { a with offset := addSz a.offset size })

/-- The method `Arena::clear()`. -/
def Arena.clear (a : Arena) : Arena := { a with offset := 0 }

/-! ## `server.hpp` -/

/-- The map `std::unordered_map<std::string, std::string>`, as an association list with
at most one entry per key. -/
abbrev Store := List (Bytes × Bytes)

/-- The lookup `store.find(key)`: the mapped string, `none` for `store.end()`. -/
def Store.find : Store → Bytes → Option Bytes
  | [], _ => none
  | (k, v) :: rest, key => if k = key then some v else Store.find rest key

/-- The assignment `store[key] = val`: overwrite the entry of `key`, or insert one. -/
def Store.assign : Store → Bytes → Bytes → Store
  | [], key, val => [(key, val)]
  | (k, v) :: rest, key, val =>
    if k = key then (k, val) :: rest else (k, v) :: Store.assign rest key val

/-- Total number of value bytes held by the store. -/
def Store.valueBytes (st : Store) : Nat := (st.map (fun e => e.2.length)).sum

/-- Size of `ClientBuffer::data`. -/
def BUF_SIZE : Nat := 8192

/-- The struct `RedisServer::ClientBuffer`. -/
structure ClientBuffer where
  data : Mem
  len : Nat

/-- The value `ClientBuffer{}`. -/
def ClientBuffer.new : ClientBuffer := ⟨fun _ => 0, 0⟩

/-- The valid bytes `data[0 .. len)`. -/
def ClientBuffer.valid (b : ClientBuffer) : Bytes := view b.data 0 b.len

/-- The members of `RedisServer` that `handle_client_data` works on: `clients`
lists the descriptors owned by the `clients` map. -/
structure RedisServer where
  arena : Arena
  store : Store
  clients : List Int
  client_buffers : Int → Option ClientBuffer

/-- Capacity the constructor gives the arena: `64 * 1024 * 1024`. -/
def ARENA_SIZE : Nat := 64 * 1024 * 1024

/-- The state built by `RedisServer::RedisServer(port)` once the sockets are set up. -/
def RedisServer.new : RedisServer :=
  ⟨Arena.new ARENA_SIZE, [], [], fun _ => none⟩

/-! ## `server.cpp`: the command dispatcher -/

def PING : Bytes := ascii "PING"
def SET : Bytes := ascii "SET"
def GET : Bytes := ascii "GET"
def PONG_REPLY : Bytes := ascii "+PONG\r\n"
def OK_REPLY : Bytes := ascii "+OK\r\n"
def OOM_REPLY : Bytes := ascii "-ERR OOM\r\n"
def NIL_REPLY : Bytes := ascii "$-1\r\n"
def UNKNOWN_REPLY : Bytes := ascii "-ERR unknown command\r\n"
def DOLLAR : Bytes := ascii "$"
def CRLF : Bytes := ascii "\r\n"

/-- The body of the parse loop after a successful parse (`if (!tokens.empty())`,
lines 121-172): the server and `response_buffer` afterwards. -/
def dispatch (s : RedisServer) (tokens : List Bytes) (response_buffer : Bytes) :
    RedisServer × Bytes :=
  if tokens ≠ [] then
    let cmd := tokens.getD 0 []
    if cmd = PING then
      (s, response_buffer ++ PONG_REPLY)
    else if cmd = SET ∧ tokens.length ≥ 3 then
      let key_view := tokens.getD 1 []
      let val_view := tokens.getD 2 []
      match s.arena.allocate val_view.length with
      | (some val_ptr, arena) =>
        let buffer := memcpy arena.buffer val_ptr val_view val_view.length
        let stored := view buffer val_ptr val_view.length
        ({ s with arena := { arena with buffer := buffer },
                  store := s.store.assign key_view stored },
         response_buffer ++ OK_REPLY)
      | (none, arena) =>
        ({ s with arena := arena }, response_buffer ++ OOM_REPLY)
    else if cmd = GET ∧ tokens.length ≥ 2 then
      let key := tokens.getD 1 []
      match s.store.find key with
      | some val =>
        (s, response_buffer ++ DOLLAR ++ to_string val.length ++ CRLF ++ val ++ CRLF)
      | none =>
        (s, response_buffer ++ NIL_REPLY)
    else
      (s, response_buffer ++ UNKNOWN_REPLY)
  else
    (s, response_buffer)

/-- The server after a sequence of parsed commands has gone through the dispatcher. -/
def dispatchAll (s : RedisServer) : List (List Bytes) → RedisServer
  | [] => s
  | t :: ts => dispatchAll (dispatch s t []).1 ts

/-! ## `server.cpp`: reading, the parse loop, compaction -/

/-- Kernel side of a connected non-blocking stream socket: the bytes received and not
yet read, and whether the peer has shut the stream down. -/
structure Sock where
  pending : Bytes
  eof : Bool

/-- The system call `read(fd, dst, count)` on such a socket, after POSIX: the return
value, the bytes stored at `dst`, the socket afterwards. With nothing pending it
returns 0 at end of stream and -1 (`EAGAIN`) otherwise. -/
def sys_read (k : Sock) (count : Nat) : Int × Bytes × Sock :=
  if count = 0 then (0, [], k)
  else if k.pending = [] then ((if k.eof then 0 else -1), [], k)
  else ((min count k.pending.length : Nat), k.pending.take count,
        { k with pending := k.pending.drop count })

/-- Modelled from the spec: `parser.hpp` is absent. The member function
`RESPParser::try_parse_command(tokens)` of a parser built over the valid bytes
`(buf.data, buf.len)`: from the input, the read position `pos` and the tokens
vector, to the number of bytes consumed (0 when no complete command is
there), the position afterwards and the tokens afterwards. A parser just built
stands at position 0. -/
abbrev TryParse := Bytes → Nat → List Bytes → Nat × Nat × List Bytes

/-- Lines 113-117: shift the unconsumed tail to the start of the buffer. -/
def compact (buf : ClientBuffer) (pos : Nat) : ClientBuffer :=
  if pos > 0 then
    { data := memmove buf.data 0 pos (subSz buf.len pos), len := subSz buf.len pos }
  else
    buf

/-- The loop `while (true)` of lines 107-173. One unit of fuel is one call of
`try_parse_command`; `none` means the fuel ran out before the parser returned 0. -/
def parseLoop (P : TryParse) (input : Bytes) :
    Nat → Nat → List Bytes → ClientBuffer → RedisServer → Bytes →
      Option (ClientBuffer × RedisServer × Bytes)
  | 0, _, _, _, _, _ => none
  | fuel + 1, pos, tokens, buf, s, response_buffer =>
    match P input pos tokens with
    | (consumed, pos1, tokens1) =>
      if consumed = 0 then
        some (compact buf pos1, s, response_buffer)
      else
        let r := dispatch s tokens1 response_buffer
        parseLoop P input fuel pos1 tokens1 buf r.1 r.2

/-- What one call of `handle_client_data` leaves behind: the server, the socket, and
the bytes handed to `send` (none when `response_buffer` is empty). -/
structure Outcome where
  server : RedisServer
  sock : Sock
  sent : Bytes

/-- The server with `client_buffers[fd]` set to `buf`. -/
def RedisServer.setBuf (s : RedisServer) (fd : Int) (buf : ClientBuffer) : RedisServer :=
  { s with client_buffers := Function.update s.client_buffers fd (some buf) }

/-- The function `RedisServer::handle_new_connection()`, given what `accept` returned: the
descriptor enters `clients` and gets a fresh `ClientBuffer{}`. -/
def handle_new_connection (s : RedisServer) (raw_client_fd : Int) : RedisServer :=
  if raw_client_fd = -1 then s
  else
    { s with clients := raw_client_fd :: s.clients.erase raw_client_fd,
             client_buffers := Function.update s.client_buffers raw_client_fd
               (some ClientBuffer.new) }

/-- The function `RedisServer::handle_client_data(fd)`, with the socket of `fd` as `k`. -/
def handle_client_data (P : TryParse) (fuel : Nat) (s : RedisServer) (fd : Int) (k : Sock) :
    Option Outcome :=
  let buf := (s.client_buffers fd).getD ClientBuffer.new
  match sys_read k (subSz BUF_SIZE buf.len) with
  | (bytes, chunk, k1) =>
    if bytes ≤ 0 then
      some { server := { s with clients := s.clients.erase fd,
                                client_buffers := Function.update s.client_buffers fd none },
             sock := k1, sent := [] }
    else
      let buf1 : ClientBuffer :=
        { data := memcpy buf.data buf.len chunk chunk.length, len := addSz buf.len bytes.toNat }
      match parseLoop P (view buf1.data 0 buf1.len) fuel 0 [] buf1 s [] with
      | none => none
      | some (buf2, s2, response_buffer) =>
        some { server := s2.setBuf fd buf2, sock := k1, sent := response_buffer }

/-- One readiness event per chunk: each chunk arrives on the socket and
`handle_client_data` runs once; the replies sent are concatenated. -/
def deliver (P : TryParse) (fuel : Nat) (fd : Int) :
    RedisServer → Sock → List Bytes → Option (RedisServer × Sock × Bytes)
  | s, k, [] => some (s, k, [])
  | s, k, c :: cs =>
    match handle_client_data P fuel s fd { k with pending := k.pending ++ c } with
    | none => none
    | some o =>
      match deliver P fuel fd o.server o.sock cs with
      | none => none
      | some (s1, k1, out) => some (s1, k1, o.sent ++ out)

/-! ## A concrete frame parser -/

/-- Split a line into its non-empty space-separated words. -/
def words : Bytes → Bytes → List Bytes
  | [], cur => if cur = [] then [] else [cur]
  | b :: rest, cur =>
    if b = 32 then (if cur = [] then words rest [] else cur :: words rest [])
    else words rest (cur ++ [b])

/-- Modelled from the spec: `parser.hpp` is absent. A frame parser in the sense of
section 4.3 for one framing the spec allows: a command is a line ended by a
line feed, its tokens are separated by spaces. Without a line feed after
`pos` it returns 0 and moves nothing. -/
def lineParser : TryParse := fun input pos tokens =>
  let rest := input.drop pos
  if (10 : Byte) ∈ rest then
    let line := rest.takeWhile (fun b => b ≠ 10)
    (line.length + 1, pos + (line.length + 1), words line [])
  else
    (0, pos, tokens)

/-! ## Counting what the claims count -/

/-- Whether the dispatcher answers the command `t`, taken alone in state `s`, with `+OK`. -/
def answeredOk (s : RedisServer) (t : List Bytes) : Bool :=
  decide ((dispatch s t []).2 = OK_REPLY)

/-- Whether some command of the sequence run from `s` is a `SET` on `key` answered `+OK`. -/
def okSetOn (key : Bytes) : RedisServer → List (List Bytes) → Bool
  | _, [] => false
  | s, t :: ts =>
    (decide (t.getD 0 [] = SET) && decide (t.getD 1 [] = key) && answeredOk s t)
      || okSetOn key (dispatch s t []).1 ts

/-- Sum of `len(v)` over the `SET` commands of the sequence run from `s` that are
answered `+OK`. -/
def okSetBytes : RedisServer → List (List Bytes) → Nat
  | _, [] => 0
  | s, t :: ts =>
    (if t.getD 0 [] = SET ∧ answeredOk s t = true then (t.getD 2 []).length else 0)
      + okSetBytes (dispatch s t []).1 ts

/-- Every token of every command fits the connection buffer. -/
def tokensFit (cmds : List (List Bytes)) : Prop :=
  ∀ t ∈ cmds, ∀ tok ∈ t, tok.length ≤ BUF_SIZE

/-! ## Auxiliary states -/

/-- The arena after a successful `SET` of `v`. -/
def Arena.afterSet (a : Arena) (v : Bytes) : Arena :=
  { size := a.size, buffer := memcpy a.buffer a.offset v v.length,
    offset := addSz a.offset v.length }

/-- The parse loop over the bytes `b` received so far on a connection whose buffer was
empty and held `d0`: result of the handler call that completes `b`. -/
def afterBytes (P : TryParse) (fuel : Nat) (s : RedisServer) (fd : Int) (d0 : Mem) (e : Bool)
    (b : Bytes) : Option Outcome :=
  (parseLoop P b fuel 0 [] ⟨memcpy d0 0 b b.length, b.length⟩ s []).map
    (fun x => ⟨x.2.1.setBuf fd x.1, ⟨[], e⟩, x.2.2⟩)

/-- A server whose 64 MiB arena has one byte left and whose store maps `a` to `old`. -/
def almostFull : RedisServer :=
  ⟨⟨ARENA_SIZE, fun _ => 0, ARENA_SIZE - 1⟩, [(ascii "a", ascii "old")], [7], fun _ => none⟩

/-! ## Arithmetic, memory and store lemmas -/

theorem addSz_le (a b : Nat) : addSz a b ≤ a + b := Nat.mod_le _ _

theorem addSz_eq {a b : Nat} (h : a + b < 2 ^ 64) : addSz a b = a + b :=
  Nat.mod_eq_of_lt h

theorem subSz_eq {a b : Nat} (hb : b ≤ a) (ha : a < 2 ^ 64) : subSz a b = a - b := by
  have hb2 : b < 2 ^ 64 := lt_of_le_of_lt hb ha
  unfold subSz SIZE_MOD
  rw [Nat.mod_eq_of_lt ha, Nat.mod_eq_of_lt hb2]
  have : a + 2 ^ 64 - b = (a - b) + 2 ^ 64 := by omega
  rw [this, Nat.add_mod_right]
  exact Nat.mod_eq_of_lt (by omega)

theorem view_length (m : Mem) (p n : Nat) : (view m p n).length = n := by
  simp [view]

theorem view_getElem (m : Mem) (p n i : Nat) (h : i < (view m p n).length) :
    (view m p n)[i] = m (p + i) := by
  simp [view]

theorem view_eq_iff (m : Mem) (p : Nat) (v : Bytes) :
    view m p v.length = v ↔ ∀ i (h : i < v.length), m (p + i) = v[i] := by
  constructor
  · intro h i hi
    have h2 : (view m p v.length)[i]? = v[i]? := by rw [h]
    rw [List.getElem?_eq_getElem (by simpa [view_length] using hi),
      List.getElem?_eq_getElem hi, view_getElem] at h2
    exact Option.some.inj h2
  · intro h
    apply List.ext_getElem (view_length m p v.length)
    intro i h1 h2
    rw [view_getElem]
    exact h i h2

theorem memcpy_inside (m : Mem) (p : Nat) (v : Bytes) (i : Nat) (h : i < v.length) :
    memcpy m p v v.length (p + i) = v[i] := by
  unfold memcpy
  rw [if_pos ⟨Nat.le_add_right p i, by omega⟩, Nat.add_sub_cancel_left,
    List.getD_eq_getElem v 0 h]

/-- Reading back what `memcpy` has just written. -/
theorem view_memcpy (m : Mem) (p : Nat) (v : Bytes) :
    view (memcpy m p v v.length) p v.length = v :=
  (view_eq_iff _ p v).2 (fun i h => memcpy_inside m p v i h)

theorem Store.find_assign_self (st : Store) (k v : Bytes) :
    Store.find (Store.assign st k v) k = some v := by
  induction st with
  | nil => simp [Store.assign, Store.find]
  | cons e rest ih =>
    obtain ⟨k1, v1⟩ := e
    by_cases h : k1 = k
    · simp [Store.assign, Store.find, h]
    · simp [Store.assign, Store.find, h, ih]

theorem Store.find_assign_ne (st : Store) (k v k2 : Bytes) (hne : k ≠ k2) :
    Store.find (Store.assign st k v) k2 = Store.find st k2 := by
  induction st with
  | nil => simp [Store.assign, Store.find, hne]
  | cons e rest ih =>
    obtain ⟨k1, v1⟩ := e
    by_cases h : k1 = k
    · subst h
      simp [Store.assign, Store.find, hne]
    · by_cases h2 : k1 = k2
      · subst h2
        simp [Store.assign, Store.find, h]
      · simp [Store.assign, Store.find, h, h2, ih]

theorem SET_ne_PING : SET ≠ PING := by decide

theorem GET_ne_PING : GET ≠ PING := by decide

theorem GET_ne_SET : GET ≠ SET := by decide

/-- The `SET` branch when the guard of `allocate` lets the request through. -/
theorem dispatch_set_ok (s : RedisServer) (k v r : Bytes)
    (h : addSz s.arena.offset v.length ≤ s.arena.size) :
    dispatch s [SET, k, v] r =
      ({ s with arena := s.arena.afterSet v, store := s.store.assign k v }, r ++ OK_REPLY) := by
  have hn : ¬ addSz s.arena.offset v.length > s.arena.size := Nat.not_lt.mpr h
  simp [dispatch, SET_ne_PING, Arena.allocate, hn, view_memcpy, Arena.afterSet]

/-- The `SET` branch when the guard of `allocate` rejects the request. -/
theorem dispatch_set_oom (s : RedisServer) (k v r : Bytes)
    (h : addSz s.arena.offset v.length > s.arena.size) :
    dispatch s [SET, k, v] r = (s, r ++ OOM_REPLY) := by
  simp [dispatch, SET_ne_PING, Arena.allocate, h]

/-- The `GET` branch. -/
theorem dispatch_get (s : RedisServer) (k r : Bytes) :
    dispatch s [GET, k] r =
      (s, match s.store.find k with
          | some val => r ++ DOLLAR ++ to_string val.length ++ CRLF ++ val ++ CRLF
          | none => r ++ NIL_REPLY) := by
  simp only [dispatch]
  cases hf : s.store.find k <;> simp [GET_ne_PING, GET_ne_SET, hf]

/-! ## C1: round trip -/

/-- C1. Round trip: in every server state, for every key `k` and value `v` with
`arena.offset + len(v) <= capacity`, dispatching `["SET", k, v]` appends `+OK\r\n`,
and dispatching `["GET", k]` right afterwards appends exactly
`$`, the decimal length of `v`, `\r\n`, the bytes of `v`, `\r\n`, and changes
nothing; it does not matter whether `k` held a value before. -/
theorem set_get_round_trip (s : RedisServer) (k v r r2 : Bytes)
    (h : s.arena.offset + v.length ≤ s.arena.size) :
    (dispatch s [SET, k, v] r).2 = r ++ OK_REPLY ∧
    dispatch (dispatch s [SET, k, v] r).1 [GET, k] r2 =
      ((dispatch s [SET, k, v] r).1,
        r2 ++ DOLLAR ++ to_string v.length ++ CRLF ++ v ++ CRLF) := by
  have hs := dispatch_set_ok s k v r (le_trans (addSz_le _ _) h)
  rw [hs, dispatch_get]
  simp [Store.find_assign_self]

theorem set_get_round_trip_witness :
    (dispatch ((RedisServer.new).setBuf 4 ClientBuffer.new)
        [SET, ascii "a", ascii "old"] []).1.arena.offset + (ascii "1").length
      ≤ (dispatch ((RedisServer.new).setBuf 4 ClientBuffer.new)
        [SET, ascii "a", ascii "old"] []).1.arena.size ∧
    dispatch (dispatch (dispatch ((RedisServer.new).setBuf 4 ClientBuffer.new)
        [SET, ascii "a", ascii "old"] []).1 [SET, ascii "a", ascii "1"] []).1
        [GET, ascii "a"] [] =
      ((dispatch (dispatch ((RedisServer.new).setBuf 4 ClientBuffer.new)
        [SET, ascii "a", ascii "old"] []).1 [SET, ascii "a", ascii "1"] []).1,
        ascii "$1\r\n1\r\n") :=
  ⟨by decide,
   (set_get_round_trip (dispatch ((RedisServer.new).setBuf 4 ClientBuffer.new)
        [SET, ascii "a", ascii "old"] []).1 (ascii "a") (ascii "1") [] []
      (by decide)).2⟩

/-! ## C2: `SET` on arena exhaustion -/

/-- C2. `SET` is atomic on arena exhaustion: when `arena.offset + len(v)` exceeds the
capacity (the sum being one a `size_t` can hold, as it is for every value that
comes out of the 8192-byte connection buffer), dispatching `["SET", k, v]`
appends `-ERR OOM\r\n` and leaves the whole server state as it was: every key
maps to what it mapped to before, an absent key stays absent, and the arena
offset is unchanged. -/
theorem set_oom_atomic (s : RedisServer) (k v r : Bytes)
    (hfit : s.arena.offset + v.length < 2 ^ 64)
    (h : s.arena.offset + v.length > s.arena.size) :
    (dispatch s [SET, k, v] r).2 = r ++ OOM_REPLY ∧
    (dispatch s [SET, k, v] r).1 = s ∧
    (∀ key, (dispatch s [SET, k, v] r).1.store.find key = s.store.find key) ∧
    (dispatch s [SET, k, v] r).1.arena.offset = s.arena.offset := by
  have hs := dispatch_set_oom s k v r (by rw [addSz_eq hfit]; exact h)
  rw [hs]
  simp

theorem set_oom_atomic_witness :
    almostFull.arena.offset + (ascii "xy").length < 2 ^ 64 ∧
    almostFull.arena.offset + (ascii "xy").length > almostFull.arena.size ∧
    (dispatch almostFull [SET, ascii "a", ascii "xy"] []).2 = ascii "-ERR OOM\r\n" ∧
    (dispatch almostFull [SET, ascii "a", ascii "xy"] []).1.store.find (ascii "a")
      = some (ascii "old") :=
  have h := set_oom_atomic almostFull (ascii "a") (ascii "xy") [] (by decide) (by decide)
  ⟨by decide, by decide, h.1, by rw [h.2.2.1]; decide⟩

/-! ## C3: unknown commands -/

/-- C3. Unknown command safety: for every non-empty token list whose first token is
none of `PING`, `SET`, `GET`, or is `SET` followed by fewer than 2 arguments, or
is `GET` with no argument, the dispatcher appends exactly
`-ERR unknown command\r\n` and returns the server as it was: store, arena
offset, `clients` and `client_buffers` are unchanged, so the connection stays. -/
theorem unknown_command_safe (s : RedisServer) (tokens : List Bytes) (r : Bytes)
    (hne : tokens ≠ [])
    (h : (tokens.getD 0 [] ≠ PING ∧ tokens.getD 0 [] ≠ SET ∧ tokens.getD 0 [] ≠ GET) ∨
         (tokens.getD 0 [] = SET ∧ tokens.length - 1 < 2) ∨
         (tokens.getD 0 [] = GET ∧ tokens.length - 1 < 1)) :
    (dispatch s tokens r).2 = r ++ UNKNOWN_REPLY ∧
    (dispatch s tokens r).1.store = s.store ∧
    (dispatch s tokens r).1.arena.offset = s.arena.offset ∧
    (dispatch s tokens r).1.clients = s.clients ∧
    (dispatch s tokens r).1.client_buffers = s.client_buffers ∧
    (dispatch s tokens r).1 = s := by
  have key : dispatch s tokens r = (s, r ++ UNKNOWN_REPLY) := by
    rcases h with ⟨h1, h2, h3⟩ | ⟨h1, h2⟩ | ⟨h1, h2⟩
    · simp only [dispatch, hne, h1, h2, h3, ne_eq, not_false_eq_true, if_true, if_false,
        false_and]
    · have h3 : ¬ 3 ≤ tokens.length := by omega
      simp only [dispatch, hne, h1, h3, SET_ne_PING, GET_ne_SET.symm, ne_eq, not_false_eq_true,
        if_true, if_false, false_and, and_false, ge_iff_le]
    · have h3 : ¬ 2 ≤ tokens.length := by omega
      simp only [dispatch, hne, h1, h3, GET_ne_PING, GET_ne_SET, ne_eq, not_false_eq_true,
        if_true, if_false, false_and, and_false, ge_iff_le]
  rw [key]
  simp

theorem unknown_command_safe_witness :
    ([ascii "SET", ascii "a"] : List Bytes) ≠ [] ∧
    (dispatch ((RedisServer.new).setBuf 4 ClientBuffer.new) [ascii "SET", ascii "a"] []).2
      = ascii "-ERR unknown command\r\n" :=
  ⟨by decide,
   (unknown_command_safe ((RedisServer.new).setBuf 4 ClientBuffer.new)
      [ascii "SET", ascii "a"] [] (by decide) (Or.inr (Or.inl ⟨by decide, by decide⟩))).1⟩

/-! ## What one dispatched command can do -/

theorem OOM_ne_OK : OOM_REPLY ≠ OK_REPLY := by decide

theorem UNKNOWN_ne_OK : UNKNOWN_REPLY ≠ OK_REPLY := by decide

/-- A dispatched command either leaves the server as it is, and is then not a `SET`
answered `+OK`, or it is a `SET` with two arguments whose allocation went
through. -/
theorem dispatch_effect (s : RedisServer) (t : List Bytes) (r : Bytes) :
    ((dispatch s t r).1 = s ∧ (t.getD 0 [] = SET → (dispatch s t r).2 ≠ r ++ OK_REPLY)) ∨
    (t.getD 0 [] = SET ∧ 3 ≤ t.length ∧
      addSz s.arena.offset (t.getD 2 []).length ≤ s.arena.size ∧
      dispatch s t r =
        ({ s with arena := s.arena.afterSet (t.getD 2 []),
                  store := s.store.assign (t.getD 1 []) (t.getD 2 []) }, r ++ OK_REPLY)) := by
  by_cases hne : t = []
  · left
    subst hne
    refine ⟨by simp [dispatch], ?_⟩
    intro h
    exact absurd h (by decide)
  by_cases hp : t.getD 0 [] = PING
  · left
    have key : dispatch s t r = (s, r ++ PONG_REPLY) := by
      simp only [dispatch, hne, hp, ne_eq, not_false_eq_true, if_true]
    rw [key]
    refine ⟨rfl, ?_⟩
    intro h
    rw [hp] at h
    exact absurd h.symm SET_ne_PING
  by_cases hs : t.getD 0 [] = SET ∧ 3 ≤ t.length
  · by_cases ha : addSz s.arena.offset (t.getD 2 []).length > s.arena.size
    · left
      have key : dispatch s t r = (s, r ++ OOM_REPLY) := by
        simp only [dispatch, hne, hs.1, hs.2, Arena.allocate, ha, SET_ne_PING, ne_eq,
          not_false_eq_true, if_true, if_false, and_self, ge_iff_le]
      rw [key]
      exact ⟨rfl, fun _ h => OOM_ne_OK (List.append_cancel_left h)⟩
    · right
      refine ⟨hs.1, hs.2, Nat.not_lt.mp ha, ?_⟩
      simp only [dispatch, hne, hs.1, hs.2, Arena.allocate, ha, SET_ne_PING, ne_eq,
        not_false_eq_true, if_true, if_false, and_self, ge_iff_le, view_memcpy, Arena.afterSet]
  · left
    by_cases hg : t.getD 0 [] = GET ∧ 2 ≤ t.length
    · refine ⟨?_, fun h => absurd (hg.1.symm.trans h) GET_ne_SET⟩
      cases hf : s.store.find (t.getD 1 []) <;>
        simp only [dispatch, hne, hg.1, hg.2, hf, GET_ne_PING, GET_ne_SET, ne_eq,
          not_false_eq_true, if_true, if_false, and_self, false_and, ge_iff_le]
    · have key : dispatch s t r = (s, r ++ UNKNOWN_REPLY) := by
        simp only [dispatch, hne, hp, hs, hg, ne_eq, not_false_eq_true, if_true, if_false]
      rw [key]
      exact ⟨rfl, fun _ h => UNKNOWN_ne_OK (List.append_cancel_left h)⟩

/-! ## C4: a key never set -/

theorem okSetOn_cons (key : Bytes) (s : RedisServer) (t : List Bytes) (ts : List (List Bytes))
    (h : okSetOn key s (t :: ts) = false) :
    ¬ (t.getD 0 [] = SET ∧ t.getD 1 [] = key ∧ answeredOk s t = true) ∧
    okSetOn key (dispatch s t []).1 ts = false := by
  simp only [okSetOn, Bool.or_eq_false_iff, Bool.and_eq_false_iff, decide_eq_false_iff_not] at h
  refine ⟨?_, h.2⟩
  rintro ⟨h0, h1, h2⟩
  rcases h.1 with (h3 | h3) | h3
  · exact h3 h0
  · exact h3 h1
  · rw [h2] at h3
    exact Bool.noConfusion h3

/-- A key that is absent stays absent as long as no `SET` on it is answered `+OK`. -/
theorem find_none_preserved (key : Bytes) (cmds : List (List Bytes)) :
    ∀ s : RedisServer, s.store.find key = none → okSetOn key s cmds = false →
      (dispatchAll s cmds).store.find key = none := by
  induction cmds with
  | nil => intro s h _; exact h
  | cons t ts ih =>
    intro s hfind hok
    obtain ⟨hno, hrest⟩ := okSetOn_cons key s t ts hok
    simp only [dispatchAll]
    apply ih _ _ hrest
    rcases dispatch_effect s t [] with ⟨hsame, _⟩ | ⟨h0, _, _, heq⟩
    · rw [hsame]
      exact hfind
    · have hans : answeredOk s t = true := by
        simp only [answeredOk, heq, List.nil_append, decide_True]
      have hk : t.getD 1 [] ≠ key := fun hk => hno ⟨h0, hk, hans⟩
      rw [heq]
      simp only
      rw [Store.find_assign_ne _ _ _ _ hk]
      exact hfind

/-- C4. Missing key: in every state reached from the freshly constructed server by a
sequence of dispatched commands none of which is a `SET` on `k` answered
`+OK\r\n`, dispatching `["GET", k]` appends exactly `$-1\r\n` and returns the
server as it was (store and arena untouched). -/
theorem get_missing_key (k : Bytes) (cmds : List (List Bytes)) (r : Bytes)
    (h : okSetOn k RedisServer.new cmds = false) :
    dispatch (dispatchAll RedisServer.new cmds) [GET, k] r =
      (dispatchAll RedisServer.new cmds, r ++ NIL_REPLY) := by
  have hf := find_none_preserved k cmds RedisServer.new rfl h
  rw [dispatch_get, hf]

theorem get_missing_key_witness :
    okSetOn (ascii "a") RedisServer.new
        [[SET, ascii "b", ascii "1"], [PING], [SET, ascii "a"], [GET, ascii "b"]] = false ∧
    (dispatch (dispatchAll RedisServer.new
        [[SET, ascii "b", ascii "1"], [PING], [SET, ascii "a"], [GET, ascii "b"]])
        [GET, ascii "a"] []).2 = ascii "$-1\r\n" :=
  ⟨by decide,
   congrArg Prod.snd (get_missing_key (ascii "a")
      [[SET, ascii "b", ascii "1"], [PING], [SET, ascii "a"], [GET, ascii "b"]] [] (by decide))⟩

/-! ## C5: the guard of `Arena::allocate` -/

/-- Where the `size_t` sum does not wrap, `allocate` does what its contract says. -/
theorem allocate_no_wrap (a : Arena) (n : Nat) (hfit : a.offset + n < 2 ^ 64) :
    (a.offset + n > a.size → a.allocate n = (none, a)) ∧
    (a.offset + n ≤ a.size →
      a.allocate n = (some a.offset, { a with offset := a.offset + n })) := by
  constructor
  · intro h
    simp [Arena.allocate, addSz_eq hfit, h]
  · intro h
    simp [Arena.allocate, addSz_eq hfit, Nat.not_lt.mpr h]

/-- C5 fails on the code. After `allocate(1)` on the 64 MiB arena the offset is 1 and
within capacity; the request `allocate(2 ^ 64 - 1)` has `offset + n` far above
the capacity, yet the `size_t` sum in the guard wraps to 0, so the call does
not fail: it returns the address at offset 1 and sets the offset back to 0. -/
theorem allocate_wraps_past_guard :
    ((Arena.new ARENA_SIZE).allocate 1).2.offset = 1 ∧
    ((Arena.new ARENA_SIZE).allocate 1).2.offset ≤ ((Arena.new ARENA_SIZE).allocate 1).2.size ∧
    2 ^ 64 - 1 < 2 ^ 64 ∧
    ((Arena.new ARENA_SIZE).allocate 1).2.offset + (2 ^ 64 - 1)
      > ((Arena.new ARENA_SIZE).allocate 1).2.size ∧
    (((Arena.new ARENA_SIZE).allocate 1).2.allocate (2 ^ 64 - 1)).1 = some 1 ∧
    (((Arena.new ARENA_SIZE).allocate 1).2.allocate (2 ^ 64 - 1)).2.offset = 0 := by
  decide

/-! ## C6: arena monotonicity -/

theorem getD_mem_of_lt {t : List Bytes} {i : Nat} (h : i < t.length) : t.getD i [] ∈ t := by
  rw [List.getD_eq_getElem t [] h]
  exact List.getElem_mem h

/-- One dispatched command whose tokens fit the connection buffer keeps the arena
size, never lowers the offset and keeps it within the size. -/
theorem dispatch_offset_mono (s : RedisServer) (t : List Bytes) (r : Bytes)
    (hinv : s.arena.offset ≤ s.arena.size) (hsz : s.arena.size + BUF_SIZE < 2 ^ 64)
    (ht : ∀ tok ∈ t, tok.length ≤ BUF_SIZE) :
    s.arena.offset ≤ (dispatch s t r).1.arena.offset ∧
    (dispatch s t r).1.arena.offset ≤ (dispatch s t r).1.arena.size ∧
    (dispatch s t r).1.arena.size = s.arena.size := by
  rcases dispatch_effect s t r with ⟨hsame, _⟩ | ⟨_, h3, hle, heq⟩
  · rw [hsame]
    exact ⟨le_refl _, hinv, rfl⟩
  · have hlen : (t.getD 2 []).length ≤ BUF_SIZE := ht _ (getD_mem_of_lt (by omega))
    have hfit : s.arena.offset + (t.getD 2 []).length < 2 ^ 64 := by omega
    rw [heq]
    simp only [Arena.afterSet]
    rw [addSz_eq hfit] at hle ⊢
    exact ⟨Nat.le_add_right _ _, hle, trivial⟩

/-- Every state reached from the fresh server keeps the 64 MiB arena and an offset
within it. -/
theorem reachable_arena (cmds : List (List Bytes)) (hfit : tokensFit cmds) :
    ∀ s : RedisServer, s.arena.size = ARENA_SIZE → s.arena.offset ≤ s.arena.size →
      (dispatchAll s cmds).arena.size = ARENA_SIZE ∧
      (dispatchAll s cmds).arena.offset ≤ (dispatchAll s cmds).arena.size := by
  induction cmds with
  | nil => intro s h1 h2; exact ⟨h1, h2⟩
  | cons t ts ih =>
    intro s h1 h2
    have hsz : s.arena.size + BUF_SIZE < 2 ^ 64 := by rw [h1]; decide
    have hm := dispatch_offset_mono s t [] h2 hsz (hfit t (List.mem_cons_self _ _))
    simp only [dispatchAll]
    exact ih (fun u hu => hfit u (List.mem_cons_of_mem _ hu)) _ (hm.2.2.trans h1) hm.2.1

/-- C6. Arena monotonicity: the fresh server has offset 0 and capacity 64 MiB, and in
every state reached from it by dispatched commands whose tokens are at most
8192 bytes long, dispatching one more such command (whatever it is) leaves the
offset greater than or equal to what it was and at most the capacity, which
stays 64 MiB. -/
theorem arena_monotone (cmds : List (List Bytes)) (t : List Bytes) (r : Bytes)
    (hfit : tokensFit cmds) (ht : ∀ tok ∈ t, tok.length ≤ BUF_SIZE) :
    RedisServer.new.arena.offset = 0 ∧ RedisServer.new.arena.size = 64 * 1024 * 1024 ∧
    (dispatchAll RedisServer.new cmds).arena.offset
      ≤ (dispatch (dispatchAll RedisServer.new cmds) t r).1.arena.offset ∧
    (dispatch (dispatchAll RedisServer.new cmds) t r).1.arena.offset ≤ 64 * 1024 * 1024 ∧
    (dispatch (dispatchAll RedisServer.new cmds) t r).1.arena.size = 64 * 1024 * 1024 := by
  have hr := reachable_arena cmds hfit RedisServer.new rfl (Nat.zero_le _)
  have hsz : (dispatchAll RedisServer.new cmds).arena.size + BUF_SIZE < 2 ^ 64 := by
    rw [hr.1]; decide
  have hm := dispatch_offset_mono (dispatchAll RedisServer.new cmds) t r hr.2 hsz ht
  have hA : ARENA_SIZE = 64 * 1024 * 1024 := rfl
  refine ⟨rfl, rfl, hm.1, ?_, ?_⟩
  · rw [← hA, ← hr.1, ← hm.2.2]
    exact hm.2.1
  · rw [hm.2.2, hr.1, hA]

theorem tokensFit_small :
    tokensFit [[SET, ascii "a", ascii "xy"], [PING], [SET, ascii "a", ascii "z"]] := by
  intro t ht tok htok
  simp only [List.mem_cons, List.mem_singleton, List.not_mem_nil, or_false] at ht
  rcases ht with rfl | rfl | rfl <;>
    simp only [List.mem_cons, List.mem_singleton, List.not_mem_nil, or_false] at htok <;>
    rcases htok with rfl | rfl | rfl <;> decide

theorem arena_monotone_witness :
    tokensFit [[SET, ascii "a", ascii "xy"], [PING], [SET, ascii "a", ascii "z"]] ∧
    (dispatchAll RedisServer.new
        [[SET, ascii "a", ascii "xy"], [PING], [SET, ascii "a", ascii "z"]]).arena.offset
      ≤ (dispatch (dispatchAll RedisServer.new
        [[SET, ascii "a", ascii "xy"], [PING], [SET, ascii "a", ascii "z"]])
          [SET, ascii "b", ascii "123"] []).1.arena.offset :=
  ⟨tokensFit_small,
   (arena_monotone [[SET, ascii "a", ascii "xy"], [PING], [SET, ascii "a", ascii "z"]]
      [SET, ascii "b", ascii "123"] [] tokensFit_small (by decide)).2.2.1⟩

/-! ## C10: arena accounting -/

/-- From any state whose arena is the 64 MiB one, the offset grows by exactly the
lengths of the values of the `SET` commands answered `+OK`. -/
theorem offset_accounting (cmds : List (List Bytes)) (hfit : tokensFit cmds) :
    ∀ s : RedisServer, s.arena.size = ARENA_SIZE → s.arena.offset ≤ s.arena.size →
      (dispatchAll s cmds).arena.offset = s.arena.offset + okSetBytes s cmds := by
  induction cmds with
  | nil => intro s _ _; rfl
  | cons t ts ih =>
    intro s h1 h2
    have hsz : s.arena.size + BUF_SIZE < 2 ^ 64 := by rw [h1]; decide
    have ht := hfit t (List.mem_cons_self _ _)
    have hm := dispatch_offset_mono s t [] h2 hsz ht
    have hrec := ih (fun u hu => hfit u (List.mem_cons_of_mem _ hu)) (dispatch s t []).1
      (hm.2.2.trans h1) hm.2.1
    simp only [dispatchAll, okSetBytes]
    rw [hrec]
    rcases dispatch_effect s t [] with ⟨hsame, hno⟩ | ⟨h0, h3, hle, heq⟩
    · have hc : ¬ (t.getD 0 [] = SET ∧ answeredOk s t = true) := by
        rintro ⟨ha, hb⟩
        simp only [answeredOk, decide_eq_true_eq] at hb
        exact hno ha (by simpa using hb)
      rw [if_neg hc, hsame]
      omega
    · have hans : answeredOk s t = true := by
        simp only [answeredOk, heq, List.nil_append, decide_True]
      have hlen : (t.getD 2 []).length ≤ BUF_SIZE := ht _ (getD_mem_of_lt (by omega))
      have hfit2 : s.arena.offset + (t.getD 2 []).length < 2 ^ 64 := by omega
      rw [if_pos ⟨h0, hans⟩, heq]
      simp only [Arena.afterSet]
      rw [addSz_eq hfit2]
      omega

/-- C10. Arena accounting: after any sequence of commands dispatched from the fresh
server (tokens being at most 8192 bytes, as they come out of the connection
buffer), the arena offset equals the sum of `len(v)` over the `SET` commands
answered `+OK\r\n`, overwrites included; and there is such a sequence after
which the offset is strictly greater than the total length of the values held
in the store: overwriting gives no space back. -/
theorem arena_accounting :
    (∀ cmds : List (List Bytes), tokensFit cmds →
      (dispatchAll RedisServer.new cmds).arena.offset = okSetBytes RedisServer.new cmds) ∧
    (∃ cmds : List (List Bytes), tokensFit cmds ∧
      (dispatchAll RedisServer.new cmds).store.valueBytes
        < (dispatchAll RedisServer.new cmds).arena.offset) := by
  constructor
  · intro cmds hfit
    have h := offset_accounting cmds hfit RedisServer.new rfl (Nat.zero_le _)
    rw [h]
    exact Nat.zero_add _
  · exact ⟨[[SET, ascii "a", ascii "xy"], [PING], [SET, ascii "a", ascii "z"]],
      tokensFit_small, by decide⟩

theorem arena_accounting_witness :
    tokensFit [[SET, ascii "a", ascii "xy"], [PING], [SET, ascii "a", ascii "z"]] ∧
    (dispatchAll RedisServer.new
        [[SET, ascii "a", ascii "xy"], [PING], [SET, ascii "a", ascii "z"]]).arena.offset = 3 :=
  ⟨tokensFit_small,
   (arena_accounting.1 [[SET, ascii "a", ascii "xy"], [PING], [SET, ascii "a", ascii "z"]]
      tokensFit_small).trans (by decide)⟩

/-! ## C7: compaction -/

theorem compact_zero (buf : ClientBuffer) : compact buf 0 = buf := by
  simp [compact]

theorem compact_valid (buf : ClientBuffer) (p : Nat) (hlen : buf.len ≤ BUF_SIZE)
    (hp : p ≤ buf.len) :
    (compact buf p).valid = buf.valid.drop p ∧ (compact buf p).len = buf.len - p := by
  have h64 : buf.len < 2 ^ 64 := lt_of_le_of_lt hlen (by decide)
  by_cases h0 : p = 0
  · subst h0
    simp [compact_zero]
  · have hpos : p > 0 := Nat.pos_of_ne_zero h0
    have hsub : subSz buf.len p = buf.len - p := subSz_eq hp h64
    simp only [compact, if_pos hpos, hsub, ClientBuffer.valid, and_true]
    apply List.ext_getElem
    · simp [view_length]
    · intro i h1 h2
      have hi : i < buf.len - p := by simpa [view_length] using h1
      rw [view_getElem, List.getElem_drop, view_getElem]
      simp only [memmove, Nat.zero_add, Nat.zero_le, true_and, Nat.sub_zero, if_pos hi]

/-- C7. Compaction keeps the unconsumed tail: when the parse loop ends (the parser
returns 0) with the parser at position `p`, `0 <= p <= len`, on a buffer holding
`len <= 8192` valid bytes, the loop returns a buffer whose valid bytes are
exactly the old bytes `b[p .. len)` in order, whose length is `len - p`, and
which is the old buffer itself when `p = 0`. -/
theorem compaction_keeps_tail (P : TryParse) (input : Bytes) (fuel pos : Nat)
    (tokens : List Bytes) (buf : ClientBuffer) (s : RedisServer) (r : Bytes)
    (hstop : (P input pos tokens).1 = 0)
    (hlen : buf.len ≤ BUF_SIZE)
    (hp : (P input pos tokens).2.1 ≤ buf.len) :
    ∃ buf2 : ClientBuffer,
      parseLoop P input (fuel + 1) pos tokens buf s r = some (buf2, s, r) ∧
      buf2.valid = buf.valid.drop (P input pos tokens).2.1 ∧
      buf2.len = buf.len - (P input pos tokens).2.1 ∧
      ((P input pos tokens).2.1 = 0 → buf2 = buf) := by
  refine ⟨compact buf (P input pos tokens).2.1, ?_, (compact_valid buf _ hlen hp).1,
    (compact_valid buf _ hlen hp).2, ?_⟩
  · simp only [parseLoop, hstop, if_true]
  · intro h0
    rw [h0, compact_zero]

theorem compaction_keeps_tail_witness :
    (lineParser (ascii "PING\nGE") 5 []).1 = 0 ∧
    (∃ buf2 : ClientBuffer,
      parseLoop lineParser (ascii "PING\nGE") 1 5 []
          ⟨memcpy (fun _ => 0) 0 (ascii "PING\nGE") 7, 7⟩ RedisServer.new PONG_REPLY
        = some (buf2, RedisServer.new, PONG_REPLY) ∧
      buf2.valid = (ascii "PING\nGE").drop 5 ∧ buf2.len = 2) :=
  ⟨by decide,
   match compaction_keeps_tail lineParser (ascii "PING\nGE") 0 5 []
      ⟨memcpy (fun _ => 0) 0 (ascii "PING\nGE") 7, 7⟩ RedisServer.new PONG_REPLY
      (by decide) (by decide) (by decide) with
   | ⟨b, h1, h2, h3, _⟩ => ⟨b, h1, h2.trans (by decide), h3.trans (by decide)⟩⟩

/-! ## C9: one read per readiness event -/

/-- Whenever `handle_client_data` returns, the socket is what a single `read` of at
most the free space of the buffer leaves. -/
theorem handle_reads_once (P : TryParse) (fuel : Nat) (s : RedisServer) (fd : Int) (k : Sock)
    (out : Outcome) (h : handle_client_data P fuel s fd k = some out) :
    out.sock =
      (sys_read k (subSz BUF_SIZE ((s.client_buffers fd).getD ClientBuffer.new).len)).2.2 := by
  unfold handle_client_data at h
  simp only at h
  split at h
  · injection h with h
    rw [← h]
  · split at h
    · exact absurd h (by simp)
    · injection h with h
      rw [← h]

/-! ## One call of the handler after a successful read -/

theorem dispatch_client_buffers (s : RedisServer) (cb : Int → Option ClientBuffer)
    (t : List Bytes) (r : Bytes) :
    dispatch { s with client_buffers := cb } t r =
      ({ (dispatch s t r).1 with client_buffers := cb }, (dispatch s t r).2) := by
  simp only [dispatch]
  split_ifs
  · rfl
  · rcases h : s.arena.allocate (t.getD 2 []).length with ⟨_ | ptr, a⟩ <;> rfl
  · rcases h : s.store.find (t.getD 1 []) with _ | v <;> rfl
  · rfl
  · rfl

theorem parseLoop_client_buffers (P : TryParse) (input : Bytes)
    (cb : Int → Option ClientBuffer) (buf : ClientBuffer) (fuel : Nat) :
    ∀ (pos : Nat) (tokens : List Bytes) (s : RedisServer) (r : Bytes),
      parseLoop P input fuel pos tokens buf { s with client_buffers := cb } r =
        (parseLoop P input fuel pos tokens buf s r).map
          (fun x => (x.1, { x.2.1 with client_buffers := cb }, x.2.2)) := by
  induction fuel with
  | zero => intro pos tokens s r; rfl
  | succ n ih =>
    intro pos tokens s r
    simp only [parseLoop]
    split_ifs
    · rfl
    · rw [dispatch_client_buffers]
      exact ih _ _ _ _

theorem dispatch_keeps_buffers (s : RedisServer) (t : List Bytes) (r : Bytes) :
    (dispatch s t r).1.client_buffers = s.client_buffers ∧
    (dispatch s t r).1.clients = s.clients := by
  rcases dispatch_effect s t r with ⟨hsame, _⟩ | ⟨_, _, _, heq⟩
  · rw [hsame]
    exact ⟨rfl, rfl⟩
  · rw [heq]
    exact ⟨rfl, rfl⟩

theorem parseLoop_keeps_buffers (P : TryParse) (input : Bytes) (buf : ClientBuffer)
    (fuel : Nat) :
    ∀ (pos : Nat) (tokens : List Bytes) (s : RedisServer) (r : Bytes)
      (x : ClientBuffer × RedisServer × Bytes),
      parseLoop P input fuel pos tokens buf s r = some x →
        x.2.1.client_buffers = s.client_buffers := by
  induction fuel with
  | zero => intro pos tokens s r x h; exact absurd h (by simp [parseLoop])
  | succ n ih =>
    intro pos tokens s r x h
    simp only [parseLoop] at h
    split_ifs at h
    · injection h with h
      rw [← h]
    · rw [ih _ _ _ _ x h]
      exact (dispatch_keeps_buffers s _ r).1

theorem memcpy_nil (d : Mem) (p : Nat) : memcpy d p [] 0 = d := by
  funext i
  simp [memcpy]

theorem memcpy_append (d : Mem) (a c : Bytes) :
    memcpy (memcpy d 0 a a.length) a.length c c.length
      = memcpy d 0 (a ++ c) (a ++ c).length := by
  funext i
  simp only [memcpy, Nat.zero_le, true_and, Nat.zero_add, Nat.sub_zero, List.length_append]
  by_cases h1 : i < a.length
  · have h2 : ¬ (a.length ≤ i ∧ i < a.length + c.length) := by omega
    have h3 : i < a.length + c.length := by omega
    rw [if_neg h2, if_pos h1, if_pos h3, List.getD_append a c 0 i h1]
  · by_cases h2 : i < a.length + c.length
    · rw [if_pos ⟨by omega, h2⟩, if_pos h2, List.getD_append_right a c 0 i (by omega)]
    · have h3 : ¬ (a.length ≤ i ∧ i < a.length + c.length) := by omega
      rw [if_neg h3, if_neg h1, if_neg h2]

theorem sys_read_all (c : Bytes) (e : Bool) (count : Nat) (hc : c ≠ [])
    (hfit : c.length ≤ count) :
    sys_read ⟨c, e⟩ count = ((c.length : Int), c, ⟨[], e⟩) := by
  have hpos : 0 < c.length := List.length_pos.mpr hc
  have h0 : count ≠ 0 := by omega
  simp only [sys_read, if_neg h0, if_neg hc, List.take_of_length_le hfit,
    List.drop_of_length_le hfit, Nat.min_eq_right hfit]

/-- The handler after a read that returned `n > 0` bytes: the parse loop runs on the
buffer extended by the chunk, and its buffer is stored back. -/
theorem handle_of_read (P : TryParse) (fuel : Nat) (s : RedisServer) (fd : Int) (k k1 : Sock)
    (buf : ClientBuffer) (chunk : Bytes) (n : Nat)
    (hb : s.client_buffers fd = some buf)
    (hr : sys_read k (subSz BUF_SIZE buf.len) = ((n : Int), chunk, k1)) (hn : 0 < n) :
    handle_client_data P fuel s fd k =
      (parseLoop P (view (memcpy buf.data buf.len chunk chunk.length) 0 (addSz buf.len n))
          fuel 0 [] ⟨memcpy buf.data buf.len chunk chunk.length, addSz buf.len n⟩ s []).map
        (fun x => ⟨x.2.1.setBuf fd x.1, k1, x.2.2⟩) := by
  have hpos : ¬ ((n : Int) ≤ 0) := by omega
  simp only [handle_client_data, hb, Option.getD_some, hr, if_neg hpos, Int.toNat_ofNat]
  cases parseLoop P (view (memcpy buf.data buf.len chunk chunk.length) 0 (addSz buf.len n))
      fuel 0 [] ⟨memcpy buf.data buf.len chunk chunk.length, addSz buf.len n⟩ s [] <;> rfl

/-- A chunk `c` arriving when the buffer holds the bytes `acc` received before. -/
theorem handle_chunk (P : TryParse) (fuel : Nat) (s : RedisServer) (fd : Int) (d0 : Mem)
    (e : Bool) (acc c : Bytes) (hc : c ≠ []) (hfit : (acc ++ c).length ≤ BUF_SIZE) :
    handle_client_data P fuel (s.setBuf fd ⟨memcpy d0 0 acc acc.length, acc.length⟩) fd ⟨c, e⟩
      = afterBytes P fuel s fd d0 e (acc ++ c) := by
  have hlen : acc.length + c.length ≤ BUF_SIZE := by simpa using hfit
  have hB : BUF_SIZE = 8192 := rfl
  have hsub : subSz BUF_SIZE acc.length = BUF_SIZE - acc.length :=
    subSz_eq (by omega) (by rw [hB]; decide)
  have hadd : addSz acc.length c.length = (acc ++ c).length := by
    rw [addSz_eq (by omega), List.length_append]
  have hpos : 0 < c.length := List.length_pos.mpr hc
  have hread : sys_read ⟨c, e⟩ (subSz BUF_SIZE acc.length) = ((c.length : Int), c, ⟨[], e⟩) :=
    sys_read_all c e _ hc (by rw [hsub]; omega)
  rw [handle_of_read P fuel _ fd ⟨c, e⟩ ⟨[], e⟩ ⟨memcpy d0 0 acc acc.length, acc.length⟩ c
    c.length (by simp [RedisServer.setBuf]) hread hpos]
  simp only [memcpy_append, hadd, view_memcpy, afterBytes]
  show (parseLoop P (acc ++ c) fuel 0 [] _
    { s with client_buffers := Function.update s.client_buffers fd _ } []).map _ = _
  rw [parseLoop_client_buffers, Option.map_map]
  cases hx : parseLoop P (acc ++ c) fuel 0 []
      ⟨memcpy d0 0 (acc ++ c) (acc ++ c).length, (acc ++ c).length⟩ s [] with
  | none => rfl
  | some x =>
    have hcb := parseLoop_keeps_buffers P (acc ++ c) _ fuel 0 [] s [] x hx
    simp [RedisServer.setBuf, Function.update_idem, hcb]

theorem afterBytes_incomplete (P : TryParse) (fuel : Nat) (s : RedisServer) (fd : Int)
    (d0 : Mem) (e : Bool) (b : Bytes) (hfuel : 1 ≤ fuel)
    (h0 : (P b 0 []).1 = 0) (h1 : (P b 0 []).2.1 = 0) :
    afterBytes P fuel s fd d0 e b =
      some ⟨s.setBuf fd ⟨memcpy d0 0 b b.length, b.length⟩, ⟨[], e⟩, []⟩ := by
  obtain ⟨f, rfl⟩ : ∃ f, fuel = f + 1 := ⟨fuel - 1, by omega⟩
  simp only [afterBytes, parseLoop, h0, h1, if_true, compact_zero, Option.map_some']

theorem afterBytes_complete (P : TryParse) (fuel : Nat) (s : RedisServer) (fd : Int)
    (d0 : Mem) (e : Bool) (b : Bytes) (hfuel : 2 ≤ fuel)
    (h0 : (P b 0 []).1 ≠ 0)
    (h1 : (P b (P b 0 []).2.1 (P b 0 []).2.2).1 = 0) :
    afterBytes P fuel s fd d0 e b =
      some ⟨(dispatch s (P b 0 []).2.2 []).1.setBuf fd
              (compact ⟨memcpy d0 0 b b.length, b.length⟩
                (P b (P b 0 []).2.1 (P b 0 []).2.2).2.1),
            ⟨[], e⟩, (dispatch s (P b 0 []).2.2 []).2⟩ := by
  obtain ⟨f, rfl⟩ : ∃ f, fuel = f + 2 := ⟨fuel - 2, by omega⟩
  simp only [afterBytes, parseLoop, h0, h1, if_true, if_false, Option.map_some']

theorem flatten_ne_nil {chunks : List Bytes} (hN : chunks ≠ [])
    (hne : ∀ c ∈ chunks, c ≠ []) : chunks.flatten ≠ [] := by
  cases chunks with
  | nil => exact absurd rfl hN
  | cons c cs =>
    have hc := hne c (List.mem_cons_self _ _)
    intro h
    rw [List.flatten_cons, List.append_eq_nil] at h
    exact hc h.1

/-- Chunked delivery of `cmd`: all handler calls but the last find an incomplete
command and only grow the buffer; the last one sees the whole of `cmd`. -/
theorem deliver_chunks (P : TryParse) (fuel : Nat) (s : RedisServer) (fd : Int) (d0 : Mem)
    (e : Bool) (cmd : Bytes) (hfuel : 1 ≤ fuel) (hlen : cmd.length ≤ BUF_SIZE)
    (hinc : ∀ n < cmd.length, 0 < n →
      (P (cmd.take n) 0 []).1 = 0 ∧ (P (cmd.take n) 0 []).2.1 = 0) :
    ∀ (chunks : List Bytes) (acc : Bytes), chunks ≠ [] → (∀ c ∈ chunks, c ≠ []) →
      acc ++ chunks.flatten = cmd →
      deliver P fuel fd (s.setBuf fd ⟨memcpy d0 0 acc acc.length, acc.length⟩) ⟨[], e⟩ chunks
        = (afterBytes P fuel s fd d0 e cmd).map (fun o => (o.server, o.sock, o.sent)) := by
  intro chunks
  induction chunks with
  | nil => intro acc hN; exact absurd rfl hN
  | cons c cs ih =>
    intro acc _ hne hcat
    have hc : c ≠ [] := hne c (List.mem_cons_self _ _)
    have hcat2 : (acc ++ c) ++ cs.flatten = cmd := by
      rw [List.append_assoc, ← List.flatten_cons]; exact hcat
    have hfit : (acc ++ c).length ≤ BUF_SIZE := by
      have := congrArg List.length hcat2
      rw [List.length_append] at this
      omega
    simp only [deliver, List.nil_append]
    rw [handle_chunk P fuel s fd d0 e acc c hc hfit]
    by_cases hcs : cs = []
    · subst hcs
      rw [List.flatten_nil, List.append_nil] at hcat2
      rw [hcat2]
      cases afterBytes P fuel s fd d0 e cmd with
      | none => rfl
      | some o => simp [deliver]
    · have hne2 : ∀ x ∈ cs, x ≠ [] := fun x hx => hne x (List.mem_cons_of_mem _ hx)
      have htail : cs.flatten ≠ [] := flatten_ne_nil hcs hne2
      have htlen : 0 < cs.flatten.length := List.length_pos.mpr htail
      have hclen : 0 < c.length := List.length_pos.mpr hc
      have hlt : (acc ++ c).length < cmd.length := by
        have := congrArg List.length hcat2
        rw [List.length_append] at this
        omega
      have hpos : 0 < (acc ++ c).length := by
        rw [List.length_append]; omega
      have htake : cmd.take (acc ++ c).length = acc ++ c := by
        rw [← hcat2]; exact List.take_left' rfl
      have hP := hinc (acc ++ c).length hlt hpos
      rw [htake] at hP
      rw [afterBytes_incomplete P fuel s fd d0 e (acc ++ c) hfuel hP.1 hP.2]
      simp only
      rw [ih (acc ++ c) hcs hne2 hcat2]
      cases afterBytes P fuel s fd d0 e cmd with
      | none => rfl
      | some o => simp

/-! ## C8: a command split over several reads -/

/-- C8. Idempotent partial frames: take a connection with an empty buffer and a drained
socket, a frame parser that returns 0 and stays at position 0 on every
incomplete initial part of a command, and a complete command of at most 8192
encoded bytes (the parser consumes it and then finds nothing more). For every
split of the bytes into `N >= 1` non-empty chunks, `N` runs of
`handle_client_data`, one per chunk, return, and give the same replies, the
same server (store, arena, connection buffer) and the same socket as one run
on the whole command; the reply is the dispatcher's reply to the command. -/
theorem split_frames_idempotent (P : TryParse) (fuel : Nat) (s : RedisServer) (fd : Int)
    (e : Bool) (buf : ClientBuffer) (chunks : List Bytes)
    (hb : s.client_buffers fd = some buf) (hempty : buf.len = 0)
    (hN : chunks ≠ []) (hne : ∀ c ∈ chunks, c ≠ [])
    (hlen : chunks.flatten.length ≤ BUF_SIZE)
    (hinc : ∀ n < chunks.flatten.length, 0 < n →
      (P (chunks.flatten.take n) 0 []).1 = 0 ∧ (P (chunks.flatten.take n) 0 []).2.1 = 0)
    (hcomplete : (P chunks.flatten 0 []).1 ≠ 0)
    (hdone : (P chunks.flatten (P chunks.flatten 0 []).2.1 (P chunks.flatten 0 []).2.2).1 = 0)
    (hfuel : 2 ≤ fuel) :
    ∃ r : RedisServer × Sock × Bytes,
      deliver P fuel fd s ⟨[], e⟩ [chunks.flatten] = some r ∧
      deliver P fuel fd s ⟨[], e⟩ chunks = some r ∧
      r.2.2 = (dispatch s (P chunks.flatten 0 []).2.2 []).2 ∧
      r.1.store = (dispatch s (P chunks.flatten 0 []).2.2 []).1.store ∧
      r.1.arena.offset = (dispatch s (P chunks.flatten 0 []).2.2 []).1.arena.offset := by
  have hs : s = s.setBuf fd ⟨memcpy buf.data 0 [] ([] : Bytes).length, ([] : Bytes).length⟩ := by
    have hbuf : (⟨memcpy buf.data 0 [] ([] : Bytes).length, ([] : Bytes).length⟩ : ClientBuffer)
        = buf := by
      cases buf with
      | mk d l =>
        simp only at hempty
        subst hempty
        simp [memcpy_nil]
    rw [hbuf]
    simp only [RedisServer.setBuf, ← hb, Function.update_eq_self]
  have hflat : chunks.flatten ≠ [] := flatten_ne_nil hN hne
  have hA := afterBytes_complete P fuel s fd buf.data e chunks.flatten hfuel hcomplete hdone
  have h1 := deliver_chunks P fuel s fd buf.data e chunks.flatten (by omega) hlen hinc
    [chunks.flatten] [] (by simp) (by simpa using hflat) (by simp)
  have h2 := deliver_chunks P fuel s fd buf.data e chunks.flatten (by omega) hlen hinc
    chunks [] hN hne (by simp)
  rw [← hs] at h1 h2
  rw [hA] at h1 h2
  refine ⟨_, h1, h2, rfl, ?_, ?_⟩
  · simp [RedisServer.setBuf]
  · simp [RedisServer.setBuf]

theorem split_frames_idempotent_witness :
    (∀ c ∈ [ascii "SE", ascii "T a", ascii " 1\n"], c ≠ []) ∧
    [ascii "SE", ascii "T a", ascii " 1\n"].flatten = ascii "SET a 1\n" ∧
    (∃ r : RedisServer × Sock × Bytes,
      deliver lineParser 2 5 (handle_new_connection RedisServer.new 5) ⟨[], false⟩
        [ascii "SET a 1\n"] = some r ∧
      deliver lineParser 2 5 (handle_new_connection RedisServer.new 5) ⟨[], false⟩
        [ascii "SE", ascii "T a", ascii " 1\n"] = some r ∧
      r.2.2 = ascii "+OK\r\n") :=
  ⟨by decide, by decide,
   match split_frames_idempotent lineParser 2 (handle_new_connection RedisServer.new 5) 5
      false ClientBuffer.new [ascii "SE", ascii "T a", ascii " 1\n"]
      rfl rfl (by decide) (by decide) (by decide) (by decide) (by decide) (by decide)
      (le_refl 2) with
   | ⟨r, h1, h2, h3, _, _⟩ => ⟨r, h1, h2, h3.trans (by decide)⟩⟩

/-! ## C9: one bounded read per readiness event -/

/-- On a fresh connection buffer, with more than 8192 bytes pending and no line feed
among the first 8192, the handler reads 8192 bytes once, finds no complete
command, sends nothing and returns with the rest still in the socket. -/
theorem handle_overfull (s : RedisServer) (fd : Int) (pnd : Bytes) (e : Bool)
    (hb : s.client_buffers fd = some ClientBuffer.new)
    (hlong : BUF_SIZE < pnd.length) (hnl : (10 : Byte) ∉ pnd.take BUF_SIZE) :
    handle_client_data lineParser 1 s fd ⟨pnd, e⟩ =
      some ⟨s.setBuf fd ⟨memcpy (fun _ => 0) 0 (pnd.take BUF_SIZE) (pnd.take BUF_SIZE).length,
              (pnd.take BUF_SIZE).length⟩,
            ⟨pnd.drop BUF_SIZE, e⟩, []⟩ := by
  have hB : BUF_SIZE = 8192 := rfl
  have hcount : subSz BUF_SIZE ClientBuffer.new.len = BUF_SIZE := by decide
  have hpnd : pnd ≠ [] := by
    intro h
    rw [h] at hlong
    exact absurd hlong (by decide)
  have htl : (pnd.take BUF_SIZE).length = BUF_SIZE := by
    rw [List.length_take]; omega
  have hread : sys_read ⟨pnd, e⟩ (subSz BUF_SIZE ClientBuffer.new.len)
      = ((BUF_SIZE : Int), pnd.take BUF_SIZE, ⟨pnd.drop BUF_SIZE, e⟩) := by
    rw [hcount]
    have h0 : BUF_SIZE ≠ 0 := by decide
    simp only [sys_read, if_neg h0, if_neg hpnd, Nat.min_eq_left (le_of_lt hlong)]
  have hadd : addSz ClientBuffer.new.len BUF_SIZE = (pnd.take BUF_SIZE).length := by
    rw [htl]; decide
  rw [handle_of_read lineParser 1 s fd _ _ ClientBuffer.new _ BUF_SIZE hb hread (by decide)]
  rw [hadd]
  have hz : ClientBuffer.new.len = 0 := rfl
  have hd : ClientBuffer.new.data = fun _ => 0 := rfl
  rw [hz, hd, view_memcpy]
  have hP : lineParser (pnd.take BUF_SIZE) 0 [] = (0, 0, []) := by
    simp only [lineParser, List.drop_zero, if_neg hnl]
  simp only [parseLoop, hP, if_true, compact_zero, Option.map_some']

/-- C9 fails on the code. A fresh connection gets a readiness event with 8193 bytes
pending (no line feed among them). The handler returns after its single read of
8192 bytes: one byte that was pending is still unread in the socket, and nothing
was sent. -/
theorem single_read_leaves_pending :
    ∃ out : Outcome,
      handle_client_data lineParser 1 (handle_new_connection RedisServer.new 5) 5
        ⟨List.replicate 8193 65, false⟩ = some out ∧
      out.sock.pending = [65] ∧ out.sent = [] := by
  have hlong : BUF_SIZE < (List.replicate 8193 (65 : Byte)).length := by
    rw [List.length_replicate]; decide
  have hnl : (10 : Byte) ∉ (List.replicate 8193 (65 : Byte)).take BUF_SIZE := by
    rw [List.take_replicate, List.mem_replicate]
    rintro ⟨_, h⟩
    exact absurd h (by decide)
  have hdrop : (List.replicate 8193 (65 : Byte)).drop BUF_SIZE = [65] := by
    rw [List.drop_replicate]
    rfl
  have hb : (handle_new_connection RedisServer.new 5).client_buffers 5 = some ClientBuffer.new := by
    simp [handle_new_connection]
  have h := handle_overfull (handle_new_connection RedisServer.new 5) 5 _ false hb hlong hnl
  rw [hdrop] at h
  exact ⟨_, h, rfl, rfl⟩

end DCS
